import Mathlib

/-
  Verification of the balanced parallel chunk-merge pipeline implemented in
  `gdb_utils.py` (class `GDBProcessor`), with the cadastral enrichment step
  from `add_info.py`.

  The embedding is shallow: the pure algorithmic content of each routine is
  translated into executable Lean functions.  Calls into the `arcpy`
  collaborator (a spatial feature store) are modelled through explicit
  environments recording the outcome of each collaborator call (which record
  sets exist, which operations raise, geometry kinds, ...).  Python
  exceptions are modelled with `Except`; the process-wide mutable
  `arcpy.env.workspace` pointer is modelled as an explicitly threaded
  `Option String` value.
-/

namespace Catastro

/-! ### Python string primitives

Models of the Python string operations used by the code: `str.upper`,
`str.lower`, `str.endswith`, and substring containment (`in`).  They are
written over `String.data` so that every definition reduces by `decide`. -/

/-- Model of Python `s.upper()` (ASCII case mapping, which covers every
string the pipeline compares). -/
def pyUpper (s : String) : String := String.mk (s.data.map Char.toUpper)

/-- Model of Python `s.lower()`. -/
def pyLower (s : String) : String := String.mk (s.data.map Char.toLower)

/-- Model of Python `s.endswith(t)`. -/
def pyEndsWith (s t : String) : Bool := t.data.reverse.isPrefixOf s.data.reverse

/-- Substring test on character lists: does `needle` occur contiguously in
the second argument? -/
def listContainsSub (needle : List Char) : List Char → Bool
  | [] => needle.isEmpty
  | c :: t => needle.isPrefixOf (c :: t) || listContainsSub needle t

/-- Model of Python `t in s` (substring containment). -/
def pyContains (s t : String) : Bool := listContainsSub t.data s.data

/-- Decimal digit character, `0 ≤ n ≤ 9 ↦ '0'..'9'`. -/
def digitChar (n : Nat) : Char := Char.ofNat (48 + n)

/-- Fuelled decimal rendering of a natural number (most significant digit
first).  The fuel argument makes the recursion structural; `natStr` supplies
enough fuel. -/
def natDigitsAux : Nat → Nat → List Char
  | 0, _ => []
  | f + 1, n => if n < 10 then [digitChar n] else natDigitsAux f (n / 10) ++ [digitChar (n % 10)]

/-- Model of Python `str(n)` for a natural number: decimal digits, no
leading zeros. -/
def natStr (n : Nat) : String := String.mk (natDigitsAux (n + 1) n)

/-! ### String constants of `GDBProcessor` -/

def rusticoName : String := "Rustico"

def rusticoAccentName : String := "Rústico"

def urbanoName : String := "Urbano"

/-- `self.DATASETS` -/
def datasetsList : List String := [rusticoName, urbanoName]

/-- `self.FEATURES` -/
def featuresList : List String :=
  [r"ALTIPUN", r"CONSTRU", r"EJES", r"ELEMLIN",
   r"ELEMPUN", r"ELEMTEX", r"HOJAS", r"LIMITES",
   r"MAPA", r"MASA", r"PARCELA", r"SUBPARCE"]

def shpExt : String := ".shp"

def gdbExt : String := ".gdb"

def chunkPre : String := "chunk_"

def rPrefixStr : String := "R"

def uPrefixStr : String := "U"

def slashStr : String := "/"

def underscoreStr : String := "_"

def altipunStr : String := "ALTIPUN"

def pointStr : String := "Point"

/-- `os.path.join(a, b)` -/
def pathJoin (a b : String) : String := a ++ slashStr ++ b

/-! ### Chunk Planner (`_create_balanced_chunks`)

The filesystem walk is modelled by giving each input directory the list of
files found beneath it; the planner's own logic (extension filter, size
collection, greedy balanced assignment, chunk naming, dict insertion) is
translated from the code. -/

/-- One file met by `os.walk`: its base name `f`, the joined path
`os.path.join(root, f)`, and `os.path.getsize(path)`. -/
structure FileEntry where
  fname : String
  path : String
  size : Nat
deriving DecidableEq

/-- An input directory: its path string and the files beneath it. -/
structure InputDir where
  dname : String
  entries : List FileEntry
deriving DecidableEq

/-- The `(path, size)` pairs collected by the walk loop: files whose
lowercased name ends in `.shp`. -/
def discoveredFiles (d : InputDir) : List (String × Nat) :=
  (d.entries.filter (fun e => pyEndsWith (pyLower e.fname) shpExt)).map
    (fun e => (e.path, e.size))

/-- Binary minimum keeping the left argument on ties, as Python's `min`. -/
def pyMin (a b : Nat) : Nat := if a ≤ b then a else b

/-- Binary maximum keeping the left argument on ties, as Python's `max`. -/
def pyMax (a b : Nat) : Nat := if b ≤ a then a else b

/-- Python `min(l)` on a list of naturals (the code only applies it to the
nonempty `chunk_sizes` list; the `[]` case is an arbitrary default). -/
def listMin : List Nat → Nat
  | [] => 0
  | x :: xs => xs.foldl pyMin x

/-- Python `max(l)` (used only in specification statements). -/
def listMax : List Nat → Nat
  | [] => 0
  | x :: xs => xs.foldl pyMax x

/-- `chunk_sizes.index(min(chunk_sizes))`: the first index holding the
minimal running total. -/
def codeArgmin (sizes : List Nat) : Nat := List.indexOf (listMin sizes) sizes

/-- `sorted(files_with_size, key=lambda x: x[1], reverse=True)`: a stable
sort placing larger sizes first (insertion sort is stable, matching
Python's Timsort on the ordering contract the code relies on). -/
def sortBySizeDesc (files : List (String × Nat)) : List (String × Nat) :=
  List.insertionSort (fun a b => b.2 ≤ a.2) files

/-- One iteration of the assignment loop: pick the chunk with the smallest
running total, append the file path to it, add the size to its total. -/
def assignStep (st : List (List String) × List Nat) (fs : String × Nat) :
    List (List String) × List Nat :=
  let k := codeArgmin st.2
  (st.1.set k (st.1.getD k [] ++ [fs.1]), st.2.set k (st.2.getD k 0 + fs.2))

/-- The chunk construction loop of `_create_balanced_chunks`: `C` empty
chunks and zero running totals, then greedy assignment in descending size
order. -/
def distributeFiles (C : Nat) (files : List (String × Nat)) :
    List (List String) × List Nat :=
  (sortBySizeDesc files).foldl assignStep (List.replicate C [], List.replicate C 0)

/-- `f"chunk_{prefix}{chunk_num}.gdb"` -/
def chunkName (pfx : String) (n : Nat) : String :=
  chunkPre ++ pfx ++ natStr n ++ gdbExt

/-- `any(r in input_dir for r in ["Rustico", "Rústico"])` -/
def isRusticoDir (name : String) : Bool :=
  pyContains name rusticoName || pyContains name rusticoAccentName

/-- `prefix = "R" if is_rustico else "U"` -/
def dirPfx (d : InputDir) : String :=
  if isRusticoDir d.dname then rPrefixStr else uPrefixStr

/-- The `(gdb_path, chunk_files)` pairs produced for one input directory:
prefix detection, per-directory chunk offset, greedy distribution, and the
skip of empty chunks. -/
def dirChunkEntries (C : Nat) (tempDir : String) (idx : Nat) (d : InputDir) :
    List (String × List String) :=
  let chunks := (distributeFiles C (discoveredFiles d)).1
  (chunks.enum.filter (fun p => !p.2.isEmpty)).map
    (fun p => (pathJoin tempDir (chunkName (dirPfx d) (p.1 + idx * C)), p.2))

/-- Python dict assignment `d[k] = v`: overwrite in place if the key is
present, else append (dicts preserve insertion order). -/
def dictInsert (d : List (String × List String)) (kv : String × List String) :
    List (String × List String) :=
  if d.any (fun p => p.1 == kv.1)
  then d.map (fun p => if p.1 == kv.1 then (p.1, kv.2) else p)
  else d ++ [kv]

/-- `_create_balanced_chunks(input_dirs, temp_dir)`: the resulting
`chunk_gdbs` dict as an insertion-ordered association list. -/
def createBalancedChunks (C : Nat) (tempDir : String) (dirs : List InputDir) :
    List (String × List String) :=
  dirs.enum.foldl
    (fun acc p => (dirChunkEntries C tempDir p.1 p.2).foldl dictInsert acc) []

/-! ### The workspace discipline and the chunk worker

`arcpy.env.workspace` is process-wide mutable state; it is threaded
explicitly.  `managedWorkspaceRun` is `_managed_workspace`: save the prior
value, set the new one, run the body, restore the prior value in a
`finally` block (so on the success and the exception path alike). -/

/-- The ambient `arcpy.env.workspace` value (`none` is Python `None`). -/
abbrev Workspace := Option String

/-- `_managed_workspace(workspace)` wrapped around a body: the body sees the
new workspace and may itself change it; whatever happens, the prior value is
restored when the block exits. -/
def managedWorkspaceRun {α : Type} (w : Workspace)
    (body : Workspace → Except String α × Workspace) (s : Workspace) :
    Except String α × Workspace :=
  let original := s
  let r := body w
  (r.1, original)

/-- Collaborator outcomes for one `_process_chunk_gdb` run: the result of
each fallible processing step.  Per-file import outcomes are listed
separately because the import loop catches them one by one. -/
structure WorkerEnv where
  createDatasetsRes : Except String Unit
  importRes : List (Except String Unit)
  municipalRes : Except String Unit
  createFCRes : Except String Unit
  appendRes : Except String Unit
  cadastralRes : Except String Unit

/-- The shapefile import loop: every per-file exception is caught and
logged (`continue`); the loop itself never fails.  Returns the number of
failures printed. -/
def importLoop (rs : List (Except String Unit)) : Nat :=
  rs.foldl (fun n r => match r with | .ok _ => n | .error _ => n + 1) 0

/-- The body of the `with self._managed_workspace(chunk_gdb)` block in
`_process_chunk_gdb`: steps 1-7.  `_create_datasets`,
`_setup_municipal_code_field`, `_create_feature_classes` and the
`CadastralInfoManager` constructor each set the ambient workspace to the
chunk GDB; `_append_feature_classes` uses its own nested managed-workspace
block; step 7 sets the workspace to `None`. -/
def workerBody (env : WorkerEnv) (chunkGdb : String) :
    Workspace → Except String Unit × Workspace :=
  fun _ws =>
    match env.createDatasetsRes with
    | .error e => (.error e, some chunkGdb)
    | .ok _ =>
      let _importErrors := importLoop env.importRes
      match env.municipalRes with
      | .error e => (.error e, some chunkGdb)
      | .ok _ =>
        match env.createFCRes with
        | .error e => (.error e, some chunkGdb)
        | .ok _ =>
          let r := managedWorkspaceRun (some chunkGdb)
            (fun w => (env.appendRes, w)) (some chunkGdb)
          match r.1 with
          | .error e => (.error e, r.2)
          | .ok _ =>
            match env.cadastralRes with
            | .error e => (.error e, some chunkGdb)
            | .ok _ => (.ok (), none)

/-- `_process_chunk_gdb(input_files, chunk_gdb)`: the managed-workspace
block inside a `try`/`except Exception` returning a boolean, with a
`finally` that sets the ambient workspace to `None`. -/
def processChunkGdb (env : WorkerEnv) (chunkGdb : String) (s : Workspace) :
    Bool × Workspace :=
  let r := managedWorkspaceRun (some chunkGdb) (workerBody env chunkGdb) s
  match r.1 with
  | .ok _ => (true, none)
  | .error _ => (false, none)

/-! ### The driver's post-pool decision (`process_directory`) -/

/-- The phase the driver proceeds to after the worker pool drains. -/
inductive DriverPhase where
  | merged
deriving DecidableEq

def noChunksMsg : String := "No chunks processed successfully"

/-- `if not any(results): raise Exception(...)`, else fall through to the
merge phase. -/
def processDirectoryAfterPool (results : List Bool) : Except String DriverPhase :=
  if !(results.any id) then .error noChunksMsg else .ok .merged

/-! ### Merge Reducer (`_merge_final_gdbs`, `_merge_feature_type`) -/

/-- Collaborator facts the merge step depends on: which record-set paths
exist, and whether the copy/merge operation towards a given target path
raises. -/
structure MergeEnv where
  fcExists : String → Bool
  opFails : String → Bool

/-- The write operation performed for one `(dataset, feature)` pair. -/
inductive MergeOp where
  | copyOne (src destDir destName : String)
  | mergeMany (srcs : List String) (target : String)
deriving DecidableEq

/-- `os.path.join(gdb, dataset, f"{dataset}_{feature}")` -/
def fcPath (gdb dataset feature : String) : String :=
  pathJoin (pathJoin gdb dataset) (dataset ++ underscoreStr ++ feature)

/-- The `source_fcs` collection loop: the matching record-set path from
every chunk GDB where it exists. -/
def collectSources (env : MergeEnv) (chunkGdbs : List String)
    (dataset feature : String) : List String :=
  (chunkGdbs.map (fun g => fcPath g dataset feature)).filter env.fcExists

def mergeFailMsg : String := "merge failed"

/-- The body of `_merge_feature_type` up to (but not including) its
`except` handler: skip on zero sources, direct copy on one, union merge on
several; the copy/merge call may raise. -/
def mergeFeatureTypeRaw (env : MergeEnv) (chunkGdbs : List String)
    (finalGdb dataset feature : String) : Except String (Option MergeOp) :=
  let target := fcPath finalGdb dataset feature
  match collectSources env chunkGdbs dataset feature with
  | [] => .ok none
  | s :: rest =>
    if rest.isEmpty then
      if env.opFails target then .error mergeFailMsg
      else .ok (some (.copyOne s (pathJoin finalGdb dataset)
        (dataset ++ underscoreStr ++ feature)))
    else
      if env.opFails target then .error mergeFailMsg
      else .ok (some (.mergeMany (s :: rest) target))

/-- `_merge_feature_type` with its `except` handler: a failure is caught
and logged.  Returns the operation performed (if any) and whether an error
was caught. -/
def mergeFeatureType (env : MergeEnv) (chunkGdbs : List String)
    (finalGdb dataset feature : String) : Option MergeOp × Bool :=
  match mergeFeatureTypeRaw env chunkGdbs finalGdb dataset feature with
  | .ok op => (op, false)
  | .error _ => (none, true)

/-- The nested pair loop of `_merge_final_gdbs`: every
`(dataset, feature)` pair is handed to `_merge_feature_type` in the fixed
enumerated order. -/
def mergeAllFeatureTypes (env : MergeEnv) (chunkGdbs : List String)
    (finalGdb : String) : List ((String × String) × (Option MergeOp × Bool)) :=
  (datasetsList.map (fun ds => featuresList.map
    (fun ft => ((ds, ft), mergeFeatureType env chunkGdbs finalGdb ds ft)))).flatten

/-! ### Resource Janitor (`_cleanup_temp_dir`) -/

/-- Per-attempt facts about the cleanup loop: whether the `try` body raises
on attempt `k`, and whether the directory is gone after attempt `k`'s
`shutil.rmtree(..., ignore_errors=True)`. -/
structure CleanupEnv where
  initialExists : Bool
  attemptRaises : Nat → Bool
  removedAt : Nat → Bool

/-- What `_cleanup_temp_dir` did: how many attempts ran, whether the
final-failure warning (with the locked-file listing) was printed, and
whether the directory was verified gone. -/
structure CleanupResult where
  attempts : Nat
  warned : Bool
  cleaned : Bool
deriving DecidableEq

def maxRetries : Nat := 3

/-- The `for attempt in range(max_retries)` loop.  A raising attempt before
the last prints a retry message and continues; a raising last attempt
prints the warning and lists locked files; a non-raising attempt returns
when the directory is verified gone and otherwise continues silently. -/
def cleanupIter (env : CleanupEnv) : Nat → Nat → CleanupResult
  | attempt, 0 => ⟨attempt, false, false⟩
  | attempt, fuel + 1 =>
    if env.attemptRaises attempt then
      if attempt < maxRetries - 1 then cleanupIter env (attempt + 1) fuel
      else ⟨attempt + 1, true, false⟩
    else if env.removedAt attempt then ⟨attempt + 1, false, true⟩
    else cleanupIter env (attempt + 1) fuel

/-- `_cleanup_temp_dir(temp_dir)`. -/
def cleanupTempDir (env : CleanupEnv) : CleanupResult :=
  if !env.initialExists then ⟨0, false, true⟩
  else cleanupIter env 0 maxRetries

/-! ### Template finder (`_find_template`) -/

/-- Collaborator facts for `_find_template`: the workspace listing and the
geometry kind `arcpy.Describe(fc).shapeType` reports for each record set
(`none` models a raising `Describe`). -/
structure TemplateEnv where
  listFCs : List String
  describeShape : String → Option String

/-- `[fc for fc in arcpy.ListFeatureClasses() if feature_type_upper in fc.upper()]` -/
def templateMatches (env : TemplateEnv) (featureType : String) : List String :=
  env.listFCs.filter (fun fc => pyContains (pyUpper fc) (pyUpper featureType))

/-- The ALTIPUN point-geometry scan: the first match whose describe call
succeeds with shape type `"Point"`; describe failures are skipped. -/
def altipunScan (describe : String → Option String) : List String → Option String
  | [] => none
  | fc :: rest =>
    if describe fc = some pointStr then some fc else altipunScan describe rest

/-- `_find_template(gdb_path, feature_type)`.  First component: the chosen
template (`.ok none` when there is no candidate; `.error` when the final
`Describe` of the chosen fallback raises).  Second component: whether the
ALTIPUN no-point-geometry warning was printed. -/
def findTemplate (env : TemplateEnv) (featureType : String) :
    Except Unit (Option String) × Bool :=
  match templateMatches env featureType with
  | [] => (.ok none, false)
  | first :: rest =>
    if pyUpper featureType = altipunStr then
      match altipunScan env.describeShape (first :: rest) with
      | some fc => (.ok (some fc), false)
      | none =>
        match env.describeShape first with
        | some _ => (.ok (some first), true)
        | none => (.error (), true)
    else
      match env.describeShape first with
      | some _ => (.ok (some first), false)
      | none => (.error (), false)

/-! ### Specification-side definitions and named environments

`specArgmin`, `specAssignStep` and `specLptDistribute` are written from the
spec's words, for the refinement claim about the planner; the rest are
named values used by the theorems below. -/

/-- Modelled from the spec's words: the index of the smallest running
total, ties broken by the lowest index. -/
def specArgmin : List Nat → Nat
  | [] => 0
  | [_] => 0
  | x :: y :: tl =>
    let j := specArgmin (y :: tl)
    if x ≤ (y :: tl).getD j 0 then 0 else j + 1

/-- Modelled from the spec's words: one greedy assignment step — the file
goes to the WorkUnit with the currently smallest running total, ties broken
by the lowest unit index, and its size is added to that total. -/
def specAssignStep (st : List (List String) × List Nat) (fs : String × Nat) :
    List (List String) × List Nat :=
  let k := specArgmin st.2
  (st.1.set k (st.1.getD k [] ++ [fs.1]), st.2.set k (st.2.getD k 0 + fs.2))

/-- Modelled from the spec's words: sort the files by size descending, keep
one running total per chunk initialised to zero, then assign each file in
sorted order by the greedy rule. -/
def specLptDistribute (C : Nat) (files : List (String × Nat)) :
    List (List String) × List Nat :=
  (sortBySizeDesc files).foldl specAssignStep
    (List.replicate C [], List.replicate C 0)

/-- The totals stay within an additive band of width `M`: any two chunk
totals differ by at most `M`. -/
def balancedBy (M : Nat) (l : List Nat) : Prop := ∀ a ∈ l, ∀ b ∈ l, a ≤ b + M

/-- The success condition of the worker body: every fallible step's
collaborator call succeeded.  Note the per-file import outcomes are absent:
the import loop swallows them. -/
def workerStepsOk (env : WorkerEnv) : Prop :=
  env.createDatasetsRes = .ok () ∧ env.municipalRes = .ok () ∧
  env.createFCRes = .ok () ∧ env.appendRes = .ok () ∧ env.cadastralRes = .ok ()

/-- A temp directory with a permanently locked file: nothing ever raises
(`shutil.rmtree` is called with `ignore_errors=True`), and the directory is
never successfully removed. -/
def lockedCleanupEnv : CleanupEnv :=
  ⟨true, fun _ => false, fun _ => false⟩

/-! ### Basic facts about `listMin` / `listMax` -/

lemma pyMin_assoc (a b c : Nat) : pyMin (pyMin a b) c = pyMin a (pyMin b c) := by
  unfold pyMin
  split_ifs <;> omega

lemma foldl_min_pull (l : List Nat) : ∀ a b : Nat,
    List.foldl pyMin (pyMin a b) l = pyMin a (List.foldl pyMin b l) := by
  induction l with
  | nil => intro a b; rfl
  | cons c l ih =>
    intro a b
    show List.foldl pyMin (pyMin (pyMin a b) c) l
        = pyMin a (List.foldl pyMin (pyMin b c) l)
    rw [pyMin_assoc, ih]

lemma listMin_cons_cons (x y : Nat) (tl : List Nat) :
    listMin (x :: y :: tl) = pyMin x (listMin (y :: tl)) := by
  show List.foldl pyMin (pyMin x y) tl = pyMin x (List.foldl pyMin y tl)
  exact foldl_min_pull tl x y

lemma pyMin_le_left (a b : Nat) : pyMin a b ≤ a := by
  unfold pyMin; split <;> omega

lemma pyMin_le_right (a b : Nat) : pyMin a b ≤ b := by
  unfold pyMin; split <;> omega

lemma listMin_le_of_mem : ∀ (l : List Nat), ∀ b ∈ l, listMin l ≤ b := by
  intro l
  induction l with
  | nil => intro b hb; cases hb
  | cons x xs ih =>
    intro b hb
    cases xs with
    | nil =>
      rcases List.mem_cons.mp hb with h | h
      · subst h; exact Nat.le_refl _
      · cases h
    | cons y tl =>
      rw [listMin_cons_cons]
      rcases List.mem_cons.mp hb with h | h
      · subst h; exact pyMin_le_left _ _
      · exact Nat.le_trans (pyMin_le_right _ _) (ih b h)

lemma listMin_mem : ∀ (x : Nat) (l : List Nat), listMin (x :: l) ∈ x :: l := by
  intro x l
  induction l generalizing x with
  | nil => exact List.mem_singleton.mpr rfl
  | cons y tl ih =>
    rw [listMin_cons_cons]
    unfold pyMin
    split
    · exact List.mem_cons_self _ _
    · exact List.mem_cons_of_mem _ (ih y)

lemma pyMax_assoc (a b c : Nat) : pyMax (pyMax a b) c = pyMax a (pyMax b c) := by
  unfold pyMax
  split_ifs <;> omega

lemma foldl_max_pull (l : List Nat) : ∀ a b : Nat,
    List.foldl pyMax (pyMax a b) l = pyMax a (List.foldl pyMax b l) := by
  induction l with
  | nil => intro a b; rfl
  | cons c l ih =>
    intro a b
    show List.foldl pyMax (pyMax (pyMax a b) c) l
        = pyMax a (List.foldl pyMax (pyMax b c) l)
    rw [pyMax_assoc, ih]

lemma listMax_cons_cons (x y : Nat) (tl : List Nat) :
    listMax (x :: y :: tl) = pyMax x (listMax (y :: tl)) := by
  show List.foldl pyMax (pyMax x y) tl = pyMax x (List.foldl pyMax y tl)
  exact foldl_max_pull tl x y

lemma le_pyMax_left (a b : Nat) : a ≤ pyMax a b := by
  unfold pyMax; split <;> omega

lemma le_pyMax_right (a b : Nat) : b ≤ pyMax a b := by
  unfold pyMax; split <;> omega

lemma le_listMax_of_mem : ∀ (l : List Nat), ∀ b ∈ l, b ≤ listMax l := by
  intro l
  induction l with
  | nil => intro b hb; cases hb
  | cons x xs ih =>
    intro b hb
    cases xs with
    | nil =>
      rcases List.mem_cons.mp hb with h | h
      · subst h; exact Nat.le_refl _
      · cases h
    | cons y tl =>
      rw [listMax_cons_cons]
      rcases List.mem_cons.mp hb with h | h
      · subst h; exact le_pyMax_left _ _
      · exact Nat.le_trans (ih b h) (le_pyMax_right _ _)

lemma listMax_mem : ∀ (x : Nat) (l : List Nat), listMax (x :: l) ∈ x :: l := by
  intro x l
  induction l generalizing x with
  | nil => exact List.mem_singleton.mpr rfl
  | cons y tl ih =>
    rw [listMax_cons_cons]
    unfold pyMax
    split
    · exact List.mem_cons_self _ _
    · exact List.mem_cons_of_mem _ (ih y)

/-! ### The spec-side argmin and its equivalence with the code's

`specArgmin` is written from the spec's words: "assign it to the WorkUnit
with the currently smallest running total (ties broken by lowest unit
index)".  `codeArgmin` is the code's `chunk_sizes.index(min(chunk_sizes))`.
They coincide. -/

lemma specArgmin_lt : ∀ (l : List Nat), l ≠ [] → specArgmin l < l.length := by
  intro l
  induction l with
  | nil => intro h; exact absurd rfl h
  | cons x xs ih =>
    intro _
    cases xs with
    | nil => exact Nat.zero_lt_one
    | cons y tl =>
      show specArgmin (x :: y :: tl) < (y :: tl).length + 1
      rw [specArgmin]
      split
      · exact Nat.succ_pos _
      · exact Nat.succ_lt_succ (ih (by simp))

lemma specArgmin_getD : ∀ (l : List Nat), l ≠ [] →
    l.getD (specArgmin l) 0 = listMin l := by
  intro l
  induction l with
  | nil => intro h; exact absurd rfl h
  | cons x xs ih =>
    intro _
    cases xs with
    | nil => rfl
    | cons y tl =>
      rw [specArgmin, listMin_cons_cons]
      have hj := ih (by simp)
      split
      · next hle =>
        rw [hj] at hle
        simp only [List.getD]
        unfold pyMin
        simp [hle]
      · next hle =>
        rw [hj] at hle
        have hlt : listMin (y :: tl) < x := by omega
        have hstep : (x :: y :: tl).getD (specArgmin (y :: tl) + 1) 0
            = (y :: tl).getD (specArgmin (y :: tl)) 0 := rfl
        rw [hstep, hj]
        unfold pyMin
        rw [if_neg (by omega)]

lemma specArgmin_first : ∀ (l : List Nat), ∀ i < specArgmin l,
    listMin l < l.getD i 0 := by
  intro l
  induction l with
  | nil => intro i hi; simp [specArgmin] at hi
  | cons x xs ih =>
    intro i hi
    cases xs with
    | nil => simp [specArgmin] at hi
    | cons y tl =>
      rw [specArgmin] at hi
      split at hi
      · omega
      · next hle =>
        have hj := specArgmin_getD (y :: tl) (by simp)
        rw [hj] at hle
        have hlt : listMin (y :: tl) < x := by omega
        have hmin : listMin (x :: y :: tl) = listMin (y :: tl) := by
          rw [listMin_cons_cons]
          unfold pyMin
          rw [if_neg (by omega)]
        cases i with
        | zero => rw [hmin]; exact hlt
        | succ i' =>
          rw [hmin]
          exact ih i' (Nat.lt_of_succ_lt_succ hi)

lemma codeArgmin_eq_spec : ∀ (l : List Nat), codeArgmin l = specArgmin l := by
  intro l
  induction l with
  | nil => rfl
  | cons x xs ih =>
    cases xs with
    | nil =>
      show List.indexOf (listMin [x]) [x] = 0
      have hx : listMin [x] = x := rfl
      rw [hx]
      exact List.indexOf_cons_self x []
    | cons y tl =>
      unfold codeArgmin at ih ⊢
      rw [listMin_cons_cons, specArgmin]
      have hj := specArgmin_getD (y :: tl) (by simp)
      by_cases hle : x ≤ listMin (y :: tl)
      · rw [show pyMin x (listMin (y :: tl)) = x from if_pos hle, hj, if_pos hle]
        exact List.indexOf_cons_self x (y :: tl)
      · have hlt : listMin (y :: tl) < x := by omega
        rw [show pyMin x (listMin (y :: tl)) = listMin (y :: tl) from
          if_neg hle, hj, if_neg hle, List.indexOf_cons]
        have hne : (x == listMin (y :: tl)) = false := by
          simp; omega
        rw [hne]
        simp [ih]

lemma listMin_mem_of_ne (l : List Nat) (h : l ≠ []) : listMin l ∈ l := by
  cases l with
  | nil => exact absurd rfl h
  | cons x xs => exact listMin_mem x xs

lemma listMax_mem_of_ne (l : List Nat) (h : l ≠ []) : listMax l ∈ l := by
  cases l with
  | nil => exact absurd rfl h
  | cons x xs => exact listMax_mem x xs

lemma codeArgmin_lt (l : List Nat) (h : l ≠ []) : codeArgmin l < l.length := by
  rw [codeArgmin_eq_spec]
  exact specArgmin_lt l h

lemma getD_codeArgmin (l : List Nat) (h : l ≠ []) :
    l.getD (codeArgmin l) 0 = listMin l := by
  rw [codeArgmin_eq_spec]
  exact specArgmin_getD l h

/-! ### Shape preservation and the load-balance invariant of the greedy loop -/

lemma assignStep_sizes_len (st : List (List String) × List Nat) (fs : String × Nat) :
    ((assignStep st fs).2).length = st.2.length := List.length_set _ _ _

lemma assignStep_chunks_len (st : List (List String) × List Nat) (fs : String × Nat) :
    ((assignStep st fs).1).length = st.1.length := List.length_set _ _ _

lemma foldl_assign_sizes_len :
    ∀ (files : List (String × Nat)) (st : List (List String) × List Nat),
    ((files.foldl assignStep st).2).length = st.2.length := by
  intro files
  induction files with
  | nil => intro st; rfl
  | cons p rest ih =>
    intro st
    show ((rest.foldl assignStep (assignStep st p)).2).length = st.2.length
    rw [ih, assignStep_sizes_len]

lemma foldl_assign_chunks_len :
    ∀ (files : List (String × Nat)) (st : List (List String) × List Nat),
    ((files.foldl assignStep st).1).length = st.1.length := by
  intro files
  induction files with
  | nil => intro st; rfl
  | cons p rest ih =>
    intro st
    show ((rest.foldl assignStep (assignStep st p)).1).length = st.1.length
    rw [ih, assignStep_chunks_len]

lemma distributeFiles_sizes_len (C : Nat) (files : List (String × Nat)) :
    ((distributeFiles C files).2).length = C := by
  unfold distributeFiles
  rw [foldl_assign_sizes_len]
  exact List.length_replicate C 0

lemma distributeFiles_chunks_len (C : Nat) (files : List (String × Nat)) :
    ((distributeFiles C files).1).length = C := by
  unfold distributeFiles
  rw [foldl_assign_chunks_len]
  exact List.length_replicate C ([] : List String)

lemma assignStep_balanced (M : Nat) (st : List (List String) × List Nat)
    (fs : String × Nat) (hs : fs.2 ≤ M) (hne : st.2 ≠ [])
    (hb : balancedBy M st.2) : balancedBy M ((assignStep st fs).2) := by
  have hk := codeArgmin_lt st.2 hne
  have hgd := getD_codeArgmin st.2 hne
  intro a ha b hbm
  have hmin_mem : listMin st.2 ∈ st.2 := listMin_mem_of_ne st.2 hne
  rcases List.mem_or_eq_of_mem_set ha with ha' | ha'
  · rcases List.mem_or_eq_of_mem_set hbm with hb' | hb'
    · exact hb a ha' b hb'
    · have hub : a ≤ listMin st.2 + M := hb a ha' _ hmin_mem
      rw [hb', hgd]
      omega
  · rcases List.mem_or_eq_of_mem_set hbm with hb' | hb'
    · have hlb : listMin st.2 ≤ b := listMin_le_of_mem st.2 b hb'
      rw [ha', hgd]
      omega
    · rw [ha', hb']
      omega

lemma foldl_assign_balanced (M : Nat) :
    ∀ (files : List (String × Nat)) (st : List (List String) × List Nat),
    (∀ p ∈ files, p.2 ≤ M) → st.2 ≠ [] → balancedBy M st.2 →
    balancedBy M ((files.foldl assignStep st).2) := by
  intro files
  induction files with
  | nil => intro st _ _ hb; exact hb
  | cons p rest ih =>
    intro st hfs hne hb
    show balancedBy M ((rest.foldl assignStep (assignStep st p)).2)
    have hne' : ((assignStep st p).2) ≠ [] := by
      have := assignStep_sizes_len st p
      intro hcon
      rw [hcon] at this
      exact hne (List.eq_nil_of_length_eq_zero this.symm)
    exact ih (assignStep st p)
      (fun q hq => hfs q (List.mem_cons_of_mem _ hq)) hne'
      (assignStep_balanced M st p (hfs p (List.mem_cons_self _ _)) hne hb)

lemma distributeFiles_balanced (C : Nat) (files : List (String × Nat))
    (hC : 0 < C) :
    balancedBy (listMax (files.map Prod.snd)) ((distributeFiles C files).2) := by
  unfold distributeFiles
  apply foldl_assign_balanced
  · intro p hp
    have hmem : p ∈ files := (List.perm_insertionSort _ files).mem_iff.mp hp
    exact le_listMax_of_mem _ _ (List.mem_map_of_mem Prod.snd hmem)
  · intro hcon
    have hrep : List.replicate C (0 : Nat) = [] := hcon
    have hlen := List.length_replicate C (0 : Nat)
    rw [hrep] at hlen
    simp at hlen
    omega
  · intro a ha b _
    have : a = 0 := (List.eq_of_mem_replicate ha)
    omega

lemma mul_min_le_sum : ∀ (l : List Nat) (m : Nat),
    (∀ b ∈ l, m ≤ b) → l.length * m ≤ l.sum := by
  intro l
  induction l with
  | nil => intro m _; simp
  | cons x xs ih =>
    intro m hm
    have hx : m ≤ x := hm x (List.mem_cons_self _ _)
    have hxs := ih m (fun b hb => hm b (List.mem_cons_of_mem _ hb))
    simp only [List.length_cons, List.sum_cons, Nat.succ_mul]
    omega

/-! ### Claim C5: the planner follows the LPT greedy rule -/

lemma assignStep_eq_spec : assignStep = specAssignStep := by
  funext st fs
  unfold assignStep specAssignStep
  rw [codeArgmin_eq_spec]

/-- Claim C5: the Chunk Planner assigns files by the
longest-processing-time greedy rule — it processes the files in descending
size order (the processing order is sorted by size descending and is a
permutation of the discovered files), and the code's assignment loop
(`chunk_sizes.index(min(chunk_sizes))` then add) coincides with the
spec's rule "assign to the unit with the smallest running total, ties
broken by lowest index, then add the size to that total". -/
theorem planner_follows_lpt_rule (C : Nat) (files : List (String × Nat)) :
    distributeFiles C files = specLptDistribute C files ∧
    List.Sorted (fun a b : String × Nat => b.2 ≤ a.2) (sortBySizeDesc files) ∧
    (sortBySizeDesc files).Perm files := by
  refine ⟨?_, ?_, List.perm_insertionSort _ files⟩
  · unfold distributeFiles specLptDistribute
    rw [assignStep_eq_spec]
  · haveI : IsTotal (String × Nat) (fun a b => b.2 ≤ a.2) :=
      ⟨fun a b => Nat.le_total b.2 a.2⟩
    haveI : IsTrans (String × Nat) (fun a b => b.2 ≤ a.2) :=
      ⟨fun _ _ _ hab hbc => Nat.le_trans hbc hab⟩
    exact List.sorted_insertionSort _ files

/-! ### Claim C9: the load-balance bound of the greedy assignment -/

/-- Claim C9: for a fixed chunk count `C ≥ 1` and any file list, after the
greedy assignment the largest chunk total exceeds the smallest by at most
the largest single file size `M`, and consequently the maximum stays within
the additive band `mean + M` (stated multiplied through by `C`:
`C * max ≤ sum + C * M`). -/
theorem chunk_load_balance_bound (C : Nat) (files : List (String × Nat))
    (hC : 0 < C) :
    listMax ((distributeFiles C files).2)
      ≤ listMin ((distributeFiles C files).2) + listMax (files.map Prod.snd) ∧
    C * listMax ((distributeFiles C files).2)
      ≤ ((distributeFiles C files).2).sum
        + C * listMax (files.map Prod.snd) := by
  have hb := distributeFiles_balanced C files hC
  have hlen := distributeFiles_sizes_len C files
  have hne : ((distributeFiles C files).2) ≠ [] := by
    intro hcon
    rw [hcon] at hlen
    simp at hlen
    omega
  have hmax_mem := listMax_mem_of_ne _ hne
  have hmin_mem := listMin_mem_of_ne _ hne
  have hband : listMax ((distributeFiles C files).2)
      ≤ listMin ((distributeFiles C files).2) + listMax (files.map Prod.snd) :=
    hb _ hmax_mem _ hmin_mem
  refine ⟨hband, ?_⟩
  have hsum : C * listMin ((distributeFiles C files).2)
      ≤ ((distributeFiles C files).2).sum := by
    have := mul_min_le_sum ((distributeFiles C files).2)
      (listMin ((distributeFiles C files).2))
      (fun b hb' => listMin_le_of_mem _ b hb')
    rw [hlen] at this
    exact this
  have hmul : C * listMax ((distributeFiles C files).2)
      ≤ C * (listMin ((distributeFiles C files).2)
        + listMax (files.map Prod.snd)) :=
    Nat.mul_le_mul_left C hband
  rw [Nat.mul_add] at hmul
  omega

/-- Witness for C9: the spec's synthetic distribution, sizes
`[100, 90, ..., 10]` across `C = 4` bins. -/
theorem chunk_load_balance_bound_witness :
    (0 : Nat) < 4 ∧
    listMax ((distributeFiles 4 [("a", 100), ("b", 90), ("c", 80), ("d", 70),
        ("e", 60), ("f", 50), ("g", 40), ("h", 30), ("i", 20), ("j", 10)]).2)
      ≤ listMin ((distributeFiles 4 [("a", 100), ("b", 90), ("c", 80), ("d", 70),
        ("e", 60), ("f", 50), ("g", 40), ("h", 30), ("i", 20), ("j", 10)]).2)
        + listMax ([("a", 100), ("b", 90), ("c", 80), ("d", 70),
        ("e", 60), ("f", 50), ("g", 40), ("h", 30), ("i", 20), ("j", 10)].map Prod.snd) ∧
    4 * listMax ((distributeFiles 4 [("a", 100), ("b", 90), ("c", 80), ("d", 70),
        ("e", 60), ("f", 50), ("g", 40), ("h", 30), ("i", 20), ("j", 10)]).2)
      ≤ ((distributeFiles 4 [("a", 100), ("b", 90), ("c", 80), ("d", 70),
        ("e", 60), ("f", 50), ("g", 40), ("h", 30), ("i", 20), ("j", 10)]).2).sum
        + 4 * listMax ([("a", 100), ("b", 90), ("c", 80), ("d", 70),
        ("e", 60), ("f", 50), ("g", 40), ("h", 30), ("i", 20), ("j", 10)].map Prod.snd) := by
  refine ⟨by decide, ?_, ?_⟩
  · exact (chunk_load_balance_bound 4 _ (by decide)).1
  · exact (chunk_load_balance_bound 4 _ (by decide)).2

/-! ### Claims C1, C6, C10: the workspace discipline of the chunk worker -/

/-- Counterexample to claim C1 as stated: a chunk-worker invocation whose
every step succeeds, started with ambient workspace `prior.gdb`, finishes
with ambient workspace `None` — not the value held before the operation
began. -/
theorem workspace_restored_counterexample :
    ¬ ((processChunkGdb ⟨.ok (), [], .ok (), .ok (), .ok (), .ok ()⟩
      "chunk.gdb" (some "prior.gdb")).2 = some "prior.gdb") := by
  decide

/-- Claim C1 (amended): every scoped-workspace operation
(`_managed_workspace`), run around an arbitrary body — hence under any
nesting — and on the success and exception paths alike, restores the
ambient workspace to the value it held before the operation began; a
chunk-worker invocation, however, does not restore the prior value: its
`finally` clause leaves the ambient workspace `None` on every exit path. -/
theorem scoped_workspace_restores_prior :
    (∀ (α : Type) (w : Workspace)
      (body : Workspace → Except String α × Workspace) (s : Workspace),
      (managedWorkspaceRun w body s).2 = s) ∧
    (∀ (env : WorkerEnv) (g : String) (s : Workspace),
      (processChunkGdb env g s).2 = none) := by
  constructor
  · intro α w body s
    rfl
  · intro env g s
    unfold processChunkGdb
    cases h : (managedWorkspaceRun (some g) (workerBody env g) s).1 <;> simp [h]

/-- Claim C10: after every chunk-worker invocation — whether it returns
success or failure — the ambient workspace is `None`, regardless of the
value held before the call. -/
theorem worker_exit_workspace_none (env : WorkerEnv) (g : String)
    (s : Workspace) : (processChunkGdb env g s).2 = none := by
  unfold processChunkGdb
  cases h : (managedWorkspaceRun (some g) (workerBody env g) s).1 <;> simp [h]

/-- Claim C6: the chunk worker always returns a boolean — `true` exactly
when every processing step completed, `false` exactly when some step
raised — for every environment and prior workspace whatsoever, so an
exception in its steps never propagates past the worker's boundary.
Per-file import failures are swallowed inside the import loop and do not
make the worker fail. -/
theorem worker_boolean_boundary (env : WorkerEnv) (g : String) (s : Workspace) :
    ((processChunkGdb env g s).1 = true ↔ workerStepsOk env) ∧
    ((processChunkGdb env g s).1 = false ↔ ¬ workerStepsOk env) := by
  rcases env with ⟨cd, ir, mu, cf, ap, ca⟩
  cases cd <;> cases mu <;> cases cf <;> cases ap <;> cases ca <;>
    simp [processChunkGdb, managedWorkspaceRun, workerBody, workerStepsOk]

/-! ### Claim C3: the driver aborts exactly when every worker failed -/

/-- Claim C3: after the worker pool drains, `process_directory` raises its
fatal error exactly when every chunk worker reported failure, and proceeds
to the merge phase exactly when at least one worker succeeded. -/
theorem driver_aborts_iff_all_failed (results : List Bool) :
    (processDirectoryAfterPool results = .error noChunksMsg ↔
      ∀ r ∈ results, r = false) ∧
    (processDirectoryAfterPool results = .ok .merged ↔
      ∃ r ∈ results, r = true) := by
  by_cases h : results.any id = true
  · obtain ⟨r, hrmem, hr⟩ := List.any_eq_true.mp h
    have hrt : r = true := hr
    constructor
    · simp only [processDirectoryAfterPool, h]
      constructor
      · intro he
        cases he
      · intro hall
        have := hall r hrmem
        rw [hrt] at this
        cases this
    · simp only [processDirectoryAfterPool, h]
      constructor
      · intro _
        exact ⟨r, hrmem, hrt⟩
      · intro _
        rfl
  · have hall : ∀ r ∈ results, r = false := by
      intro r hrmem
      by_contra hr
      have hrt : r = true := by
        cases r
        · exact absurd rfl hr
        · rfl
      exact h (List.any_eq_true.mpr ⟨r, hrmem, by rw [hrt]; rfl⟩)
    have hf : results.any id = false := by
      cases hany : results.any id
      · rfl
      · exact absurd hany h
    constructor
    · simp only [processDirectoryAfterPool, hf]
      constructor
      · intro _
        exact hall
      · intro _
        rfl
    · simp only [processDirectoryAfterPool, hf]
      constructor
      · intro he
        cases he
      · intro ⟨r, hrmem, hrt⟩
        have := hall r hrmem
        rw [hrt] at this
        cases this

/-! ### Claim C7: the Resource Janitor's retry bound and warning -/

/-- Counterexample to claim C7 as stated: with a permanently locked file
(removal fails silently on all three attempts, no exception is ever
raised), the Janitor exhausts its retries and returns, but the warning
listing the remaining locked entries is never emitted. -/
theorem janitor_warning_counterexample :
    (cleanupTempDir lockedCleanupEnv).cleaned = false ∧
    (cleanupTempDir lockedCleanupEnv).attempts = 3 ∧
    (cleanupTempDir lockedCleanupEnv).warned = false := by
  decide

/-- Claim C7 (amended): the Janitor makes at most 3 cleanup attempts and
always returns (every exception is caught); however the warning listing the
remaining locked entries is emitted only when the directory initially
exists, neither of the first two attempts both avoids raising and removes
the directory, and the third attempt itself raises an exception.  When
removal merely fails silently (as with `ignore_errors=True` and a locked
file), the retries exhaust without any warning. -/
theorem janitor_retry_bound (env : CleanupEnv) :
    (cleanupTempDir env).attempts ≤ 3 ∧
    ((cleanupTempDir env).warned = true ↔
      env.initialExists = true ∧
      (env.attemptRaises 0 = true ∨ env.removedAt 0 = false) ∧
      (env.attemptRaises 1 = true ∨ env.removedAt 1 = false) ∧
      env.attemptRaises 2 = true) := by
  rcases env with ⟨ie, ar, rm⟩
  cases ie <;>
    by_cases h0 : ar 0 = true <;> by_cases r0 : rm 0 = true <;>
    by_cases h1 : ar 1 = true <;> by_cases r1 : rm 1 = true <;>
    by_cases h2 : ar 2 = true <;> by_cases r2 : rm 2 = true <;>
    simp_all [cleanupTempDir, cleanupIter, maxRetries]

/-! ### Claim C4: the Merge Reducer's per-pair behaviour -/

/-- Claim C4: for each `(category, recordType)` pair the reducer collects
the matching record set from every intermediate store where it exists; with
zero sources it performs no write and raises no error; with exactly one
source it copies it directly into the final store under the target name;
with two or more sources it union-merges them into the target; a failing
copy/merge is caught (the pair yields no operation and a caught-error flag)
— and the pair loop hands every `(dataset, feature)` pair to the merge step
whatever the environment, so one pair's failure never prevents the rest. -/
theorem merge_reducer_behaviour (env : MergeEnv) (chunkGdbs : List String)
    (finalGdb dataset feature : String) :
    (collectSources env chunkGdbs dataset feature = [] →
      mergeFeatureType env chunkGdbs finalGdb dataset feature = (none, false)) ∧
    (∀ s, collectSources env chunkGdbs dataset feature = [s] →
      env.opFails (fcPath finalGdb dataset feature) = false →
      mergeFeatureType env chunkGdbs finalGdb dataset feature =
        (some (.copyOne s (pathJoin finalGdb dataset)
          (dataset ++ underscoreStr ++ feature)), false)) ∧
    (∀ s rest, collectSources env chunkGdbs dataset feature = s :: rest →
      rest ≠ [] →
      env.opFails (fcPath finalGdb dataset feature) = false →
      mergeFeatureType env chunkGdbs finalGdb dataset feature =
        (some (.mergeMany (s :: rest) (fcPath finalGdb dataset feature)), false)) ∧
    (∀ s rest, collectSources env chunkGdbs dataset feature = s :: rest →
      env.opFails (fcPath finalGdb dataset feature) = true →
      mergeFeatureType env chunkGdbs finalGdb dataset feature = (none, true)) ∧
    ((mergeAllFeatureTypes env chunkGdbs finalGdb).map Prod.fst =
      (datasetsList.map (fun ds => featuresList.map (fun ft => (ds, ft)))).flatten) := by
  refine ⟨?_, ?_, ?_, ?_, ?_⟩
  · intro hnil
    unfold mergeFeatureType mergeFeatureTypeRaw
    rw [hnil]
  · intro s hone hop
    unfold mergeFeatureType mergeFeatureTypeRaw
    rw [hone]
    simp [hop]
  · intro s rest hcons hrest hop
    unfold mergeFeatureType mergeFeatureTypeRaw
    rw [hcons]
    simp [hop, hrest]
  · intro s rest hcons hop
    unfold mergeFeatureType mergeFeatureTypeRaw
    rw [hcons]
    by_cases hrest : rest.isEmpty <;> simp [hop, hrest]
  · unfold mergeAllFeatureTypes
    rw [List.map_flatten, List.map_map]
    apply congrArg List.flatten
    apply List.map_congr_left
    intro ds _
    show List.map Prod.fst (List.map
      (fun ft => ((ds, ft), mergeFeatureType env chunkGdbs finalGdb ds ft))
      featuresList) = _
    rw [List.map_map]
    rfl

/-- Witness for C4: the three source-count scenarios and the caught-failure
scenario, each at a concrete environment over two chunk stores. -/
theorem merge_reducer_behaviour_witness :
    (mergeFeatureType ⟨fun _ => false, fun _ => false⟩ [r"g1", r"g2"]
      (r"final") rusticoName (r"MASA") = (none, false)) ∧
    (mergeFeatureType ⟨fun p => p == fcPath (r"g1") rusticoName (r"MASA"),
        fun _ => false⟩ [r"g1", r"g2"] (r"final") rusticoName (r"MASA") =
      (some (.copyOne (fcPath (r"g1") rusticoName (r"MASA"))
        (pathJoin (r"final") rusticoName)
        (rusticoName ++ underscoreStr ++ r"MASA")), false)) ∧
    (mergeFeatureType ⟨fun _ => true, fun _ => false⟩ [r"g1", r"g2"]
      (r"final") rusticoName (r"MASA") =
      (some (.mergeMany [fcPath (r"g1") rusticoName (r"MASA"),
        fcPath (r"g2") rusticoName (r"MASA")]
        (fcPath (r"final") rusticoName (r"MASA"))), false)) ∧
    (mergeFeatureType ⟨fun _ => true, fun _ => true⟩ [r"g1", r"g2"]
      (r"final") rusticoName (r"MASA") = (none, true)) := by
  refine ⟨?_, ?_, ?_, ?_⟩
  · exact (merge_reducer_behaviour ⟨fun _ => false, fun _ => false⟩
      [r"g1", r"g2"] (r"final") rusticoName (r"MASA")).1 (by decide)
  · exact (merge_reducer_behaviour ⟨fun p => p == fcPath (r"g1") rusticoName (r"MASA"),
      fun _ => false⟩ [r"g1", r"g2"] (r"final") rusticoName (r"MASA")).2.1 _
      (by decide) (by decide)
  · exact (merge_reducer_behaviour ⟨fun _ => true, fun _ => false⟩
      [r"g1", r"g2"] (r"final") rusticoName (r"MASA")).2.2.1 _ _
      (by decide) (by decide) (by decide)
  · exact (merge_reducer_behaviour ⟨fun _ => true, fun _ => true⟩
      [r"g1", r"g2"] (r"final") rusticoName (r"MASA")).2.2.2.1
      (fcPath (r"g1") rusticoName (r"MASA"))
      [fcPath (r"g2") rusticoName (r"MASA")]
      (by decide) (by decide)

/-! ### Claim C8: the ALTIPUN special case of the template finder -/

lemma altipunScan_of_first_point (describe : String → Option String) :
    ∀ (l₁ : List String) (fc : String) (l₂ : List String),
    (∀ y ∈ l₁, describe y ≠ some pointStr) →
    describe fc = some pointStr →
    altipunScan describe (l₁ ++ fc :: l₂) = some fc := by
  intro l₁
  induction l₁ with
  | nil =>
    intro fc l₂ _ hfc
    simp [altipunScan, hfc]
  | cons y ys ih =>
    intro fc l₂ hnone hfc
    have hy : describe y ≠ some pointStr := hnone y (List.mem_cons_self _ _)
    show altipunScan describe (y :: (ys ++ fc :: l₂)) = some fc
    rw [altipunScan, if_neg hy]
    exact ih fc l₂ (fun z hz => hnone z (List.mem_cons_of_mem _ hz)) hfc

lemma altipunScan_of_no_point (describe : String → Option String) :
    ∀ (l : List String), (∀ fc ∈ l, describe fc ≠ some pointStr) →
    altipunScan describe l = none := by
  intro l
  induction l with
  | nil => intro _; rfl
  | cons y ys ih =>
    intro hnone
    rw [altipunScan, if_neg (hnone y (List.mem_cons_self _ _))]
    exact ih (fun z hz => hnone z (List.mem_cons_of_mem _ hz))

/-- Claim C8: with no candidate the finder returns no template; for the
point-only record type ALTIPUN it returns the first candidate whose
geometry kind is `"Point"` whenever one exists (without the warning), and
only when no candidate has point geometry does it fall back to the first
candidate, emitting the warning; for every other record type it returns the
first candidate containing the record type in its name.  (The fallback
clauses assume the log-line `Describe` of the first candidate succeeds,
since the code lets that call's exception propagate.) -/
theorem template_finder_behaviour (env : TemplateEnv) (ft : String) :
    (templateMatches env ft = [] → findTemplate env ft = (.ok none, false)) ∧
    (pyUpper ft = altipunStr →
      ∀ (l₁ : List String) (fc : String) (l₂ : List String),
      templateMatches env ft = l₁ ++ fc :: l₂ →
      (∀ y ∈ l₁, env.describeShape y ≠ some pointStr) →
      env.describeShape fc = some pointStr →
      findTemplate env ft = (.ok (some fc), false)) ∧
    (pyUpper ft = altipunStr →
      (∀ fc ∈ templateMatches env ft, env.describeShape fc ≠ some pointStr) →
      ∀ (first : String) (rest : List String),
      templateMatches env ft = first :: rest →
      env.describeShape first ≠ none →
      findTemplate env ft = (.ok (some first), true)) ∧
    (pyUpper ft ≠ altipunStr →
      ∀ (first : String) (rest : List String),
      templateMatches env ft = first :: rest →
      env.describeShape first ≠ none →
      findTemplate env ft = (.ok (some first), false)) := by
  refine ⟨?_, ?_, ?_, ?_⟩
  · intro hnil
    unfold findTemplate
    rw [hnil]
  · intro hft l₁ fc l₂ hsplit hnone hfc
    have hscan := altipunScan_of_first_point env.describeShape l₁ fc l₂ hnone hfc
    unfold findTemplate
    rw [hsplit]
    cases l₁ with
    | nil =>
      simp only [List.nil_append] at hscan ⊢
      rw [if_pos hft, hscan]
    | cons y ys =>
      simp only [List.cons_append] at hscan ⊢
      rw [if_pos hft, hscan]
  · intro hft hnone first rest hcons hdesc
    have hscan := altipunScan_of_no_point env.describeShape
      (templateMatches env ft) hnone
    rw [hcons] at hscan
    cases hd : env.describeShape first with
    | none => exact absurd hd hdesc
    | some g₀ => simp [findTemplate, hcons, hft, hscan, hd]
  · intro hft first rest hcons hdesc
    cases hd : env.describeShape first with
    | none => exact absurd hd hdesc
    | some g₀ => simp [findTemplate, hcons, hft, hd]

/-- Witness for C8: concrete listings exercising the empty case, the
point-preferred case, the warned fallback case and the ordinary
first-match case. -/
theorem template_finder_behaviour_witness :
    (findTemplate ⟨[], fun _ => none⟩ altipunStr = (.ok none, false)) ∧
    (findTemplate ⟨[r"Taltipun_line", r"TaltipunPT"],
        fun fc => if fc == r"TaltipunPT" then some pointStr else some (r"Polyline")⟩
      altipunStr = (.ok (some (r"TaltipunPT")), false)) ∧
    (findTemplate ⟨[r"Taltipun_line"], fun _ => some (r"Polyline")⟩
      altipunStr = (.ok (some (r"Taltipun_line")), true)) ∧
    (findTemplate ⟨[r"Tmasa1", r"Tmasa2"], fun _ => some (r"Polygon")⟩
      (r"MASA") = (.ok (some (r"Tmasa1")), false)) := by
  refine ⟨?_, ?_, ?_, ?_⟩
  · exact (template_finder_behaviour ⟨[], fun _ => none⟩ altipunStr).1 (by decide)
  · exact (template_finder_behaviour ⟨[r"Taltipun_line", r"TaltipunPT"],
      fun fc => if fc == r"TaltipunPT" then some pointStr else some (r"Polyline")⟩
      altipunStr).2.1 (by decide) [r"Taltipun_line"] (r"TaltipunPT") []
      (by decide) (by decide) (by decide)
  · exact (template_finder_behaviour ⟨[r"Taltipun_line"], fun _ => some (r"Polyline")⟩
      altipunStr).2.2.1 (by decide) (by decide) (r"Taltipun_line") []
      (by decide) (by decide)
  · exact (template_finder_behaviour ⟨[r"Tmasa1", r"Tmasa2"], fun _ => some (r"Polygon")⟩
      (r"MASA")).2.2.2 (by decide) (r"Tmasa1") [r"Tmasa2"] (by decide) (by decide)

/-! ### Claim C2: partition completeness of the planner

First: the chunk GDB names are pairwise distinct, which needs injectivity
of the decimal rendering and of the `chunk_{prefix}{num}.gdb` shape. -/

lemma natDigitsAux_ne_nil : ∀ (f n : Nat), n < f → natDigitsAux f n ≠ [] := by
  intro f n h
  cases f with
  | zero => omega
  | succ g =>
    rw [natDigitsAux]
    split
    · simp
    · simp

lemma natDigitsAux_fuel : ∀ (n f₁ f₂ : Nat), n < f₁ → n < f₂ →
    natDigitsAux f₁ n = natDigitsAux f₂ n := by
  intro n
  induction n using Nat.strong_induction_on with
  | _ n ih =>
    intro f₁ f₂ h₁ h₂
    cases f₁ with
    | zero => omega
    | succ g₁ =>
      cases f₂ with
      | zero => omega
      | succ g₂ =>
        rw [natDigitsAux, natDigitsAux]
        by_cases h10 : n < 10
        · rw [if_pos h10, if_pos h10]
        · rw [if_neg h10, if_neg h10]
          have hd : n / 10 < n := Nat.div_lt_self (by omega) (by omega)
          rw [ih (n / 10) hd g₁ g₂ (by omega) (by omega)]

lemma digitChar_inj : ∀ a, a < 10 → ∀ b, b < 10 →
    digitChar a = digitChar b → a = b := by
  decide

lemma natDigitsAux_inj : ∀ (m n : Nat),
    natDigitsAux (m + 1) m = natDigitsAux (n + 1) n → m = n := by
  intro m
  induction m using Nat.strong_induction_on with
  | _ m ih =>
    intro n h
    rw [natDigitsAux, natDigitsAux] at h
    by_cases hm : m < 10 <;> by_cases hn : n < 10
    · rw [if_pos hm, if_pos hn] at h
      exact digitChar_inj m hm n hn (List.cons.inj h).1
    · rw [if_pos hm, if_neg hn] at h
      exfalso
      have hlen := congrArg List.length h
      simp at hlen
      exact natDigitsAux_ne_nil n (n / 10)
        (Nat.div_lt_self (by omega) (by omega)) hlen
    · rw [if_neg hm, if_pos hn] at h
      exfalso
      have hlen := congrArg List.length h
      simp at hlen
      exact natDigitsAux_ne_nil m (m / 10)
        (Nat.div_lt_self (by omega) (by omega)) hlen
    · rw [if_neg hm, if_neg hn] at h
      have hrev := congrArg List.reverse h
      rw [List.reverse_append, List.reverse_append] at hrev
      simp only [List.reverse_cons, List.reverse_nil, List.nil_append,
        List.singleton_append] at hrev
      obtain ⟨hhead, htail⟩ := List.cons.inj hrev
      have hmod : m % 10 = n % 10 :=
        digitChar_inj (m % 10) (Nat.mod_lt m (by omega)) (n % 10)
          (Nat.mod_lt n (by omega)) hhead
      have htails : natDigitsAux m (m / 10) = natDigitsAux n (n / 10) :=
        List.reverse_injective htail
      have hmfl : m / 10 < m := Nat.div_lt_self (by omega) (by omega)
      have hnfl : n / 10 < n := Nat.div_lt_self (by omega) (by omega)
      have hnorm : natDigitsAux (m / 10 + 1) (m / 10)
          = natDigitsAux (n / 10 + 1) (n / 10) := by
        rw [← natDigitsAux_fuel (m / 10) m (m / 10 + 1) (by omega) (by omega),
          ← natDigitsAux_fuel (n / 10) n (n / 10 + 1) (by omega) (by omega)]
        exact htails
      have hdiv : m / 10 = n / 10 := ih (m / 10) hmfl (n / 10) hnorm
      omega

lemma chunkName_data (pfx : String) (n : Nat) :
    (chunkName pfx n).data
      = chunkPre.data ++ (pfx.data ++ (natDigitsAux (n + 1) n ++ gdbExt.data)) := by
  show (((chunkPre ++ pfx) ++ natStr n) ++ gdbExt).data = _
  simp only [String.data_append, List.append_assoc]
  rfl

/-- Every prefix actually used is a single character. -/
lemma dirPfx_single (d : InputDir) : ∃ c : Char, (dirPfx d).data = [c] := by
  unfold dirPfx
  split
  · exact ⟨'R', rfl⟩
  · exact ⟨'U', rfl⟩

lemma chunkKey_num_inj (tempDir : String) (p₁ p₂ : String) (c₁ c₂ : Char)
    (hp₁ : p₁.data = [c₁]) (hp₂ : p₂.data = [c₂]) (n₁ n₂ : Nat)
    (h : pathJoin tempDir (chunkName p₁ n₁) = pathJoin tempDir (chunkName p₂ n₂)) :
    n₁ = n₂ := by
  have hd : ((tempDir ++ slashStr) ++ chunkName p₁ n₁).data
      = ((tempDir ++ slashStr) ++ chunkName p₂ n₂).data := congrArg String.data h
  simp only [String.data_append, List.append_assoc] at hd
  have hc : slashStr.data ++ (chunkName p₁ n₁).data
      = slashStr.data ++ (chunkName p₂ n₂).data := List.append_cancel_left hd
  have hc₂ : (chunkName p₁ n₁).data = (chunkName p₂ n₂).data :=
    List.append_cancel_left hc
  rw [chunkName_data, chunkName_data] at hc₂
  have hc₃ : p₁.data ++ (natDigitsAux (n₁ + 1) n₁ ++ gdbExt.data)
      = p₂.data ++ (natDigitsAux (n₂ + 1) n₂ ++ gdbExt.data) :=
    List.append_cancel_left hc₂
  rw [hp₁, hp₂, List.singleton_append, List.singleton_append] at hc₃
  have hc₄ : natDigitsAux (n₁ + 1) n₁ ++ gdbExt.data
      = natDigitsAux (n₂ + 1) n₂ ++ gdbExt.data := (List.cons.inj hc₃).2
  exact natDigitsAux_inj n₁ n₂ (List.append_cancel_right hc₄)

lemma flatten_set_snoc (l : List (List String)) :
    ∀ (k : Nat) (a : String), k < l.length →
    ((l.set k (l.getD k [] ++ [a])).flatten).Perm (a :: l.flatten) := by
  induction l with
  | nil => intro k a hk; simp at hk
  | cons h t ih =>
    intro k a hk
    cases k with
    | zero =>
      show (((h ++ [a]) :: t).flatten).Perm (a :: (h :: t).flatten)
      rw [List.flatten_cons, List.flatten_cons, List.append_assoc,
        List.singleton_append]
      exact List.perm_middle
    | succ k' =>
      have hk' : k' < t.length := Nat.lt_of_succ_lt_succ hk
      show ((h :: t.set k' (t.getD k' [] ++ [a])).flatten).Perm (a :: (h :: t).flatten)
      rw [List.flatten_cons, List.flatten_cons]
      exact (List.Perm.append_left h (ih k' a hk')).trans List.perm_middle

lemma foldl_assign_flatten_perm (C : Nat) (hC : 0 < C) :
    ∀ (files : List (String × Nat)) (st : List (List String) × List Nat),
    st.1.length = C → st.2.length = C →
    (((files.foldl assignStep st).1).flatten).Perm
      (files.map Prod.fst ++ st.1.flatten) := by
  intro files
  induction files with
  | nil =>
    intro st _ _
    simp
  | cons p rest ih =>
    intro st h1 h2
    show (((rest.foldl assignStep (assignStep st p)).1).flatten).Perm _
    have hne : st.2 ≠ [] := by
      intro hcon
      rw [hcon] at h2
      simp at h2
      omega
    have hk : codeArgmin st.2 < st.1.length := by
      rw [h1, ← h2]
      exact codeArgmin_lt st.2 hne
    have hstep : (((assignStep st p).1).flatten).Perm (p.1 :: st.1.flatten) :=
      flatten_set_snoc st.1 (codeArgmin st.2) p.1 hk
    have h1' : ((assignStep st p).1).length = C := by
      rw [assignStep_chunks_len]; exact h1
    have h2' : ((assignStep st p).2).length = C := by
      rw [assignStep_sizes_len]; exact h2
    have hperm := ih (assignStep st p) h1' h2'
    refine hperm.trans ?_
    refine (List.Perm.append_left (rest.map Prod.fst) hstep).trans ?_
    exact List.perm_middle

lemma flatten_replicate_nil (C : Nat) :
    (List.replicate C ([] : List String)).flatten = [] := by
  induction C with
  | zero => rfl
  | succ n ih => simp [List.replicate, ih]

lemma distributeFiles_flatten_perm (C : Nat) (files : List (String × Nat))
    (hC : 0 < C) :
    (((distributeFiles C files).1).flatten).Perm (files.map Prod.fst) := by
  unfold distributeFiles
  have hmain := foldl_assign_flatten_perm C hC (sortBySizeDesc files)
    (List.replicate C [], List.replicate C 0) (by simp) (by simp)
  rw [flatten_replicate_nil, List.append_nil] at hmain
  exact hmain.trans ((List.perm_insertionSort _ files).map Prod.fst)

lemma enumFrom_filter_map_snd {α : Type} (q : α → Bool) :
    ∀ (L : List α) (n : Nat),
    (((List.enumFrom n L).filter (fun p => q p.2)).map Prod.snd) = L.filter q := by
  intro L
  induction L with
  | nil => intro n; rfl
  | cons h t ih =>
    intro n
    rw [List.enumFrom_cons, List.filter_cons, List.filter_cons]
    by_cases hq : q h
    · simp only [hq, if_pos]
      rw [List.map_cons, ih]
    · simp only [hq]
      simp only [Bool.false_eq_true, if_false]
      exact ih (n + 1)

lemma flatten_filter_nonempty :
    ∀ (L : List (List String)),
    ((L.filter (fun c => !c.isEmpty)).flatten) = L.flatten := by
  intro L
  induction L with
  | nil => rfl
  | cons h t ih =>
    rw [List.filter_cons]
    by_cases hh : h.isEmpty
    · have hnil : h = [] := List.isEmpty_iff.mp hh
      simp only [hh, Bool.not_true, Bool.false_eq_true, if_false]
      rw [ih, hnil, List.flatten_cons, List.nil_append]
    · have : (!h.isEmpty) = true := by simp [hh]
      simp only [this, if_pos]
      rw [List.flatten_cons, List.flatten_cons, ih]

lemma dirChunkEntries_values_flatten (C : Nat) (td : String) (idx : Nat)
    (d : InputDir) (hC : 0 < C) :
    (((dirChunkEntries C td idx d).map Prod.snd).flatten).Perm
      ((discoveredFiles d).map Prod.fst) := by
  unfold dirChunkEntries
  rw [List.map_map]
  have hmm : (Prod.snd ∘ fun p : Nat × List String =>
      (pathJoin td (chunkName (dirPfx d) (p.1 + idx * C)), p.2))
      = fun p : Nat × List String => p.2 := rfl
  rw [hmm]
  have henum : ((((distributeFiles C (discoveredFiles d)).1).enum.filter
      (fun p => !p.2.isEmpty)).map (fun p : Nat × List String => p.2))
      = ((distributeFiles C (discoveredFiles d)).1).filter (fun c => !c.isEmpty) := by
    exact enumFrom_filter_map_snd (fun c => !c.isEmpty)
      ((distributeFiles C (discoveredFiles d)).1) 0
  rw [henum, flatten_filter_nonempty]
  exact distributeFiles_flatten_perm C (discoveredFiles d) hC

lemma pairwise_fst_lt_enumFrom {α : Type} :
    ∀ (L : List α) (n : Nat),
    List.Pairwise (fun p q : Nat × α => p.1 < q.1) (List.enumFrom n L) := by
  intro L
  induction L with
  | nil => intro n; exact List.Pairwise.nil
  | cons h t ih =>
    intro n
    rw [List.enumFrom_cons]
    refine List.pairwise_cons.mpr ⟨?_, ih (n + 1)⟩
    intro q hq
    obtain ⟨i, x⟩ := q
    have hb := List.mem_enumFrom hq
    show n < i
    omega

lemma dirChunkEntries_keys_pairwise (C : Nat) (td : String) (idx : Nat)
    (d : InputDir) :
    List.Pairwise (fun a b : String × List String => a.1 ≠ b.1)
      (dirChunkEntries C td idx d) := by
  unfold dirChunkEntries
  rw [List.pairwise_map]
  apply List.Pairwise.filter
  refine (pairwise_fst_lt_enumFrom _ 0).imp ?_
  intro p q hpq hkey
  obtain ⟨c, hc⟩ := dirPfx_single d
  have hnum := chunkKey_num_inj td _ _ c c hc hc _ _ hkey
  omega

lemma mem_dirChunkEntries (C : Nat) (td : String) (idx : Nat) (d : InputDir)
    (e : String × List String) (he : e ∈ dirChunkEntries C td idx d) :
    ∃ i, i < C ∧ e.1 = pathJoin td (chunkName (dirPfx d) (i + idx * C)) := by
  unfold dirChunkEntries at he
  obtain ⟨p, hp, hpe⟩ := List.mem_map.mp he
  obtain ⟨i, x⟩ := p
  have hmem : (i, x) ∈ ((distributeFiles C (discoveredFiles d)).1).enum :=
    List.mem_of_mem_filter hp
  have hb := List.mem_enumFrom hmem
  refine ⟨i, ?_, ?_⟩
  · have := hb.2.1
    rw [distributeFiles_chunks_len] at this
    omega
  · rw [← hpe]

lemma allEntries_keys_pairwise (C : Nat) (td : String) (dirs : List InputDir) :
    List.Pairwise (fun a b : String × List String => a.1 ≠ b.1)
      ((dirs.enum.map (fun p => dirChunkEntries C td p.1 p.2)).flatten) := by
  rw [List.pairwise_flatten]
  constructor
  · intro l hl
    obtain ⟨p, _, hpe⟩ := List.mem_map.mp hl
    rw [← hpe]
    exact dirChunkEntries_keys_pairwise C td p.1 p.2
  · rw [List.pairwise_map]
    refine (pairwise_fst_lt_enumFrom dirs 0).imp ?_
    intro p q hpq e₁ he₁ e₂ he₂
    obtain ⟨i₁, hi₁, hk₁⟩ := mem_dirChunkEntries C td p.1 p.2 e₁ he₁
    obtain ⟨i₂, hi₂, hk₂⟩ := mem_dirChunkEntries C td q.1 q.2 e₂ he₂
    intro hkey
    rw [hk₁, hk₂] at hkey
    obtain ⟨c₁, hc₁⟩ := dirPfx_single p.2
    obtain ⟨c₂, hc₂⟩ := dirPfx_single q.2
    have hnum := chunkKey_num_inj td _ _ c₁ c₂ hc₁ hc₂ _ _ hkey
    have h2 : C + p.1 * C = (p.1 + 1) * C := by ring
    have h3 : (p.1 + 1) * C ≤ q.1 * C := Nat.mul_le_mul_right C (by omega)
    omega

lemma dictInsert_fresh (dct : List (String × List String))
    (kv : String × List String) (h : ∀ p ∈ dct, p.1 ≠ kv.1) :
    dictInsert dct kv = dct ++ [kv] := by
  unfold dictInsert
  rw [if_neg]
  intro hany
  obtain ⟨x, hx, hbeq⟩ := List.any_eq_true.mp hany
  exact h x hx (by simpa using hbeq)

lemma foldl_dictInsert_append :
    ∀ (pairs acc : List (String × List String)),
    (∀ p ∈ pairs, ∀ q ∈ acc, q.1 ≠ p.1) →
    List.Pairwise (fun a b : String × List String => a.1 ≠ b.1) pairs →
    pairs.foldl dictInsert acc = acc ++ pairs := by
  intro pairs
  induction pairs with
  | nil => intro acc _ _; simp
  | cons kv rest ih =>
    intro acc hfresh hpw
    show rest.foldl dictInsert (dictInsert acc kv) = acc ++ kv :: rest
    rw [dictInsert_fresh acc kv
      (fun q hq => hfresh kv (List.mem_cons_self _ _) q hq)]
    have hfresh' : ∀ p ∈ rest, ∀ q ∈ acc ++ [kv], q.1 ≠ p.1 := by
      intro p hp q hq
      rcases List.mem_append.mp hq with hq' | hq'
      · exact hfresh p (List.mem_cons_of_mem _ hp) q hq'
      · rw [List.mem_singleton.mp hq']
        exact (List.pairwise_cons.mp hpw).1 p hp
    rw [ih (acc ++ [kv]) hfresh' (List.pairwise_cons.mp hpw).2]
    rw [List.append_assoc]
    rfl

lemma foldl_dict_flatten :
    ∀ (L : List (List (String × List String)))
      (acc : List (String × List String)),
    (L.flatten).foldl dictInsert acc
      = L.foldl (fun a l => l.foldl dictInsert a) acc := by
  intro L
  induction L with
  | nil => intro acc; rfl
  | cons h t ih =>
    intro acc
    rw [List.flatten_cons, List.foldl_append, ih]
    rfl

lemma createBalancedChunks_eq_flatten (C : Nat) (td : String)
    (dirs : List InputDir) :
    createBalancedChunks C td dirs
      = (dirs.enum.map (fun p => dirChunkEntries C td p.1 p.2)).flatten := by
  unfold createBalancedChunks
  rw [← List.foldl_map (fun p : Nat × InputDir => dirChunkEntries C td p.1 p.2)
    (fun a l => l.foldl dictInsert a) dirs.enum []]
  rw [← foldl_dict_flatten]
  rw [foldl_dictInsert_append _ [] (by intro p _ q hq; cases hq)
    (allEntries_keys_pairwise C td dirs)]
  rw [List.nil_append]

/-- Claim C2: the union of the file lists across all WorkUnits produced by
`_create_balanced_chunks` is a permutation of the discovered input files
(each `.shp` file found beneath the input directories appears exactly once:
no duplication, no omission). -/
theorem chunk_partition_completeness (C : Nat) (td : String)
    (dirs : List InputDir) (hC : 0 < C) :
    ((((createBalancedChunks C td dirs).map Prod.snd).flatten)).Perm
      ((dirs.map (fun d => (discoveredFiles d).map Prod.fst)).flatten) := by
  rw [createBalancedChunks_eq_flatten]
  suffices haux : ∀ (ds : List InputDir) (n : Nat),
      (((((List.enumFrom n ds).map
        (fun p => dirChunkEntries C td p.1 p.2)).flatten).map Prod.snd).flatten).Perm
        ((ds.map (fun d => (discoveredFiles d).map Prod.fst)).flatten) by
    exact haux dirs 0
  intro ds
  induction ds with
  | nil =>
    intro n
    exact List.Perm.refl _
  | cons d rest ih =>
    intro n
    rw [List.enumFrom_cons, List.map_cons, List.flatten_cons, List.map_append,
      List.flatten_append, List.map_cons, List.flatten_cons]
    exact List.Perm.append (dirChunkEntries_values_flatten C td n d hC) (ih (n + 1))

/-- Witness for C2 at a concrete pair of input directories (one file not
matching `.shp` is discarded by discovery, the others are partitioned). -/
theorem chunk_partition_completeness_witness :
    (0 : Nat) < 2 ∧
    ((((createBalancedChunks 2 (r"tmp")
        [⟨r"Rustico", [⟨r"a.shp", r"R/a.shp", 10⟩, ⟨r"b.shp", r"R/b.shp", 4⟩,
          ⟨r"c.txt", r"R/c.txt", 99⟩]⟩,
         ⟨r"Urbano", [⟨r"d.SHP", r"U/d.SHP", 7⟩]⟩]).map Prod.snd).flatten)).Perm
      (([⟨r"Rustico", [⟨r"a.shp", r"R/a.shp", 10⟩, ⟨r"b.shp", r"R/b.shp", 4⟩,
          ⟨r"c.txt", r"R/c.txt", 99⟩]⟩,
         (⟨r"Urbano", [⟨r"d.SHP", r"U/d.SHP", 7⟩]⟩ : InputDir)].map
        (fun d => (discoveredFiles d).map Prod.fst)).flatten) := by
  refine ⟨by decide, ?_⟩
  exact chunk_partition_completeness 2 (r"tmp")
    [⟨r"Rustico", [⟨r"a.shp", r"R/a.shp", 10⟩, ⟨r"b.shp", r"R/b.shp", 4⟩,
      ⟨r"c.txt", r"R/c.txt", 99⟩]⟩,
     ⟨r"Urbano", [⟨r"d.SHP", r"U/d.SHP", 7⟩]⟩] (by decide)

end Catastro
